import Mathlib

/-!
Verification of the Anduin Markdown editor's text-manipulation core.

This file gives a shallow embedding of the pure text-manipulation logic of
the Anduin desktop Markdown editor (renderer editing commands, list
continuation, debounced rendering, file-service safety, settings
persistence, i18n lookup and the HTML→Markdown converter) and proves the
behavioural properties claimed by its specification.

JS strings are modelled as `List Char` (one entry per code unit; every index
used by the program is a code-unit index).  The DOM `<textarea>` is modelled
by `EditorState`: its text together with the selection range
`selectionStart ≤ selectionEnd ≤ length`, an invariant the DOM maintains.
-/

namespace Anduin

/-- The character class matched by JavaScript's `\s` (and removed by
`String.prototype.trim`): whitespace and line terminators. -/
def isJsSpace (c : Char) : Bool :=
  c = ' ' || c = '\t' || c = '\n' || c = '\r' ||
  c.val = 0x0b || c.val = 0x0c || c.val = 0xa0 || c.val = 0x1680 ||
  (0x2000 ≤ c.val && c.val ≤ 0x200a) || c.val = 0x2028 || c.val = 0x2029 ||
  c.val = 0x202f || c.val = 0x205f || c.val = 0x3000 || c.val = 0xfeff

/-- The characters excluded by the JavaScript regex `.` (and therefore by
a trailing `(.*)$` group): the line terminators LF, CR, U+2028, U+2029.
All of them are also `\s` whitespace. -/
def isLineTerm (c : Char) : Bool :=
  c = '\n' || c = '\r' || c.val = 0x2028 || c.val = 0x2029

/-- Model of `s.split('\n')` of JavaScript: split a string at every newline.
The result is always non-empty and its parts contain no newline. -/
def splitNl : List Char → List (List Char)
  | [] => [[]]
  | c :: cs =>
    if c = '\n' then [] :: splitNl cs
    else
      match splitNl cs with
      | [] => [[c]]
      | l :: ls => (c :: l) :: ls

/-- Model of `parts.join('\n')` of JavaScript: interleave the parts with newlines. -/
def joinNl : List (List Char) → List Char
  | [] => []
  | [l] => l
  | l :: ls => l ++ '\n' :: joinNl ls

/-- The `<textarea>` state: its text and the selection range. -/
structure EditorState where
  value : List Char
  selStart : Nat
  selEnd : Nat
  deriving Repr, DecidableEq

/-- One line's step of `toggleLinePrefix` (renderer.js:357-362): remove the
prefix when present, otherwise prepend it. -/
def toggleLine (p l : List Char) : List Char :=
  if p.isPrefixOf l then l.drop p.length else p ++ l

/-- Model of `toggleLinePrefix` (renderer.js:348-370): toggle `p` on every line of
the selected region, re-selecting the toggled text. -/
def toggleLinePrefix (p : List Char) (st : EditorState) : EditorState :=
  let before := st.value.take st.selStart
  let selected := (st.value.drop st.selStart).take (st.selEnd - st.selStart)
  let after := st.value.drop st.selEnd
  let newSelected := joinNl ((splitNl selected).map (toggleLine p))
  { value := before ++ newSelected ++ after
    selStart := st.selStart
    selEnd := st.selStart + newSelected.length }

theorem splitNl_ne_nil (s : List Char) : splitNl s ≠ [] := by
  cases s with
  | nil => simp [splitNl]
  | cons c cs =>
    by_cases h : c = '\n'
    · simp [splitNl, h]
    · simp only [splitNl, if_neg h]
      cases hs : splitNl cs with
      | nil => simp
      | cons l ls => simp

theorem joinNl_splitNl (s : List Char) : joinNl (splitNl s) = s := by
  induction s with
  | nil => rfl
  | cons c cs ih =>
    cases hs : splitNl cs with
    | nil => exact absurd hs (splitNl_ne_nil cs)
    | cons l ls =>
      rw [hs] at ih
      by_cases h : c = '\n'
      · subst h
        simp only [splitNl, if_pos rfl, hs]
        show ([] : List Char) ++ '\n' :: joinNl (l :: ls) = '\n' :: cs
        rw [List.nil_append, ih]
      · simp only [splitNl, if_neg h, hs]
        cases ls with
        | nil =>
          show c :: l = c :: cs
          simp only [joinNl] at ih
          rw [ih]
        | cons l2 ls2 =>
          show (c :: l) ++ '\n' :: joinNl (l2 :: ls2) = c :: cs
          simp only [joinNl] at ih
          rw [List.cons_append, ih]

theorem not_mem_splitNl (s : List Char) : ∀ l ∈ splitNl s, '\n' ∉ l := by
  induction s with
  | nil => intro l hl; simp [splitNl] at hl; simp [hl]
  | cons c cs ih =>
    intro l hl
    by_cases h : c = '\n'
    · simp only [splitNl, if_pos h, List.mem_cons] at hl
      rcases hl with rfl | hl
      · simp
      · exact ih l hl
    · simp only [splitNl, if_neg h] at hl
      cases hs : splitNl cs with
      | nil => simp [hs] at hl; simp [hl, h, Ne.symm]
      | cons m ms =>
        rw [hs, List.mem_cons] at hl
        rcases hl with rfl | hl
        · intro hmem
          rcases List.mem_cons.mp hmem with rfl | hmem
          · exact h rfl
          · exact ih m (by simp [hs]) hmem
        · exact ih l (by simp [hs, hl])

theorem splitNl_joinNl (ls : List (List Char)) (hne : ls ≠ [])
    (h : ∀ l ∈ ls, '\n' ∉ l) : splitNl (joinNl ls) = ls := by
  induction ls with
  | nil => exact absurd rfl hne
  | cons l rest ih =>
    cases rest with
    | nil =>
      have hl : '\n' ∉ l := h l (by simp)
      clear ih hne h
      induction l with
      | nil => rfl
      | cons c cs ihc =>
        have hc : c ≠ '\n' := fun hc => hl (by simp [hc])
        have hcs : '\n' ∉ cs := fun hm => hl (by simp [hm])
        simp only [joinNl] at ihc ⊢
        rw [splitNl, if_neg hc, ihc hcs]
    | cons l2 rest2 =>
      have hl : '\n' ∉ l := h l (by simp)
      have hrest : splitNl (joinNl (l2 :: rest2)) = l2 :: rest2 :=
        ih (by simp) (fun m hm => h m (by simp [hm]))
      show splitNl (l ++ '\n' :: joinNl (l2 :: rest2)) = l :: l2 :: rest2
      clear ih hne h
      induction l with
      | nil =>
        rw [List.nil_append]
        show splitNl ('\n' :: joinNl (l2 :: rest2)) = [] :: l2 :: rest2
        simp only [splitNl, hrest]
        simp
      | cons c cs ihc =>
        have hc : c ≠ '\n' := fun hc => hl (by simp [hc])
        have hcs : '\n' ∉ cs := fun hm => hl (by simp [hm])
        rw [List.cons_append]
        simp only [splitNl, if_neg hc, ihc hcs]

theorem toggleLine_toggleLine (p l : List Char) (h : ¬ (p ++ p) <+: l) :
    toggleLine p (toggleLine p l) = l := by
  unfold toggleLine
  by_cases hp : p.isPrefixOf l
  · obtain ⟨t, rfl⟩ := List.isPrefixOf_iff_prefix.mp hp
    rw [if_pos hp, List.drop_left]
    have hnp : ¬ p.isPrefixOf t := by
      intro hc
      obtain ⟨u, rfl⟩ := List.isPrefixOf_iff_prefix.mp hc
      exact h ⟨u, by simp⟩
    rw [if_neg hnp]
  · have hpl : p.isPrefixOf (p ++ l) = true :=
      List.isPrefixOf_iff_prefix.mpr (List.prefix_append p l)
    rw [if_neg hp, if_pos hpl, List.drop_left]

theorem not_mem_toggleLine (p l : List Char) (hnp : '\n' ∉ p) (hnl : '\n' ∉ l) :
    '\n' ∉ toggleLine p l := by
  unfold toggleLine
  split
  · exact fun hmem => hnl ((List.drop_sublist _ _).mem hmem)
  · intro hmem
    rcases List.mem_append.mp hmem with h | h
    · exact hnp h
    · exact hnl h

theorem take_sel_drop (v : List Char) (s e : Nat) (hse : s ≤ e) (_hel : e ≤ v.length) :
    v.take s ++ ((v.drop s).take (e - s) ++ v.drop e) = v := by
  have h1 : v.drop e = (v.drop s).drop (e - s) := by
    rw [List.drop_drop]
    congr 1
    omega
  rw [h1, List.take_append_drop, List.take_append_drop]

/-- C1 (counterexample): toggling the prefix `"# "` twice is *not* the
identity on every text: on the document `"# # x"`, wholly selected, the
first toggle strips one `"# "` and the second strips another, yielding
`"x"` instead of the original text. -/
theorem toggleLinePrefix_twice_not_id :
    (toggleLinePrefix "# ".toList
        (toggleLinePrefix "# ".toList ⟨"# # x".toList, 0, 5⟩)).value
      ≠ "# # x".toList := by decide

/-- C1 (amended): toggling a newline-free line prefix twice — the second
toggle acting on the selection the first one establishes — restores the
original editor text, provided no selected line starts with the prefix
repeated twice (on such a line both toggles strip, as the counterexample
shows). -/
theorem toggleLinePrefix_toggleLinePrefix_value (p : List Char) (st : EditorState)
    (hse : st.selStart ≤ st.selEnd) (hel : st.selEnd ≤ st.value.length)
    (hnp : '\n' ∉ p)
    (hpp : ∀ l ∈ splitNl ((st.value.drop st.selStart).take (st.selEnd - st.selStart)),
      ¬ (p ++ p) <+: l) :
    (toggleLinePrefix p (toggleLinePrefix p st)).value = st.value := by
  obtain ⟨v, s, e⟩ := st
  simp only at hse hel hpp
  have hbl : (v.take s).length = s := by
    rw [List.length_take]
    omega
  set sel := (v.drop s).take (e - s) with hsel
  set lines := splitNl sel with hlines
  set toggled := lines.map (toggleLine p) with htoggled
  set ns := joinNl toggled with hns
  -- the state after the first toggle
  have hst1 : toggleLinePrefix p ⟨v, s, e⟩ =
      ⟨v.take s ++ (ns ++ v.drop e), s, s + ns.length⟩ := by
    simp only [toggleLinePrefix, List.append_assoc]
  rw [hst1]
  -- fields of the second application
  have hbefore : (v.take s ++ (ns ++ v.drop e)).take s = v.take s := by
    have h := List.take_left (v.take s) (ns ++ v.drop e)
    rwa [hbl] at h
  have hdrop : (v.take s ++ (ns ++ v.drop e)).drop s = ns ++ v.drop e := by
    have h := List.drop_left (v.take s) (ns ++ v.drop e)
    rwa [hbl] at h
  have hsel2 : ((v.take s ++ (ns ++ v.drop e)).drop s).take (s + ns.length - s) = ns := by
    rw [hdrop]
    have : s + ns.length - s = ns.length := by omega
    rw [this, List.take_left]
  have hafter : (v.take s ++ (ns ++ v.drop e)).drop (s + ns.length) = v.drop e := by
    have hlen2 : (v.take s ++ ns).length = s + ns.length := by
      rw [List.length_append, hbl]
    rw [← List.append_assoc, ← hlen2, List.drop_left]
  -- the toggled lines toggle back
  have hsplit_ns : splitNl ns = toggled := by
    apply splitNl_joinNl
    · rw [htoggled]
      intro hc
      exact splitNl_ne_nil sel (List.map_eq_nil_iff.mp hc)
    · intro l hl
      rw [htoggled] at hl
      obtain ⟨m, hm, rfl⟩ := List.mem_map.mp hl
      exact not_mem_toggleLine p m hnp (not_mem_splitNl sel m hm)
  have hback : toggled.map (toggleLine p) = lines := by
    rw [htoggled, List.map_map]
    have : lines.map (toggleLine p ∘ toggleLine p) = lines.map id := by
      apply List.map_congr_left
      intro l hl
      exact toggleLine_toggleLine p l (hpp l hl)
    rw [this, List.map_id]
  simp only [toggleLinePrefix, hbefore, hsel2, hafter, hsplit_ns, hback]
  rw [hlines, joinNl_splitNl, hsel, List.append_assoc]
  exact take_sel_drop v s e hse hel

/-- C1 (witness): a concrete run of the amended theorem: toggling `"- "`
twice on the fully selected document `"abc"` gives back `"abc"`. -/
theorem toggleLinePrefix_toggleLinePrefix_value_witness :
    (toggleLinePrefix "- ".toList
        (toggleLinePrefix "- ".toList ⟨"abc".toList, 0, 3⟩)).value
      = "abc".toList :=
  toggleLinePrefix_toggleLinePrefix_value "- ".toList ⟨"abc".toList, 0, 3⟩
    (by decide) (by decide) (by decide) (by decide)

/-- C10: the `'toggle-paragraph'` command invokes `toggleLinePrefix('')`;
with the empty prefix every line "starts with" the prefix and removing it
removes nothing, so the command is the identity on the whole editor state
(text and selection), for every well-formed selection. -/
theorem toggleLinePrefix_nil_id (st : EditorState)
    (hse : st.selStart ≤ st.selEnd) (hel : st.selEnd ≤ st.value.length) :
    toggleLinePrefix [] st = st := by
  obtain ⟨v, s, e⟩ := st
  simp only at hse hel
  have htl : ∀ l : List Char, toggleLine [] l = l := by
    intro l
    unfold toggleLine
    have hnp : ([] : List Char).isPrefixOf l = true :=
      List.isPrefixOf_iff_prefix.mpr List.nil_prefix
    rw [if_pos hnp]
    simp
  have hmap : (splitNl ((v.drop s).take (e - s))).map (toggleLine []) =
      splitNl ((v.drop s).take (e - s)) := by
    have : (splitNl ((v.drop s).take (e - s))).map (toggleLine []) =
        (splitNl ((v.drop s).take (e - s))).map id :=
      List.map_congr_left (fun l _ => htl l)
    rw [this, List.map_id]
  have hlensel : ((v.drop s).take (e - s)).length = e - s := by
    rw [List.length_take, List.length_drop]
    omega
  simp only [toggleLinePrefix, hmap, joinNl_splitNl, hlensel]
  rw [List.append_assoc, take_sel_drop v s e hse hel]
  congr 1
  omega

/-- C10 (witness): the empty-prefix toggle at a concrete document and
selection. -/
theorem toggleLinePrefix_nil_id_witness :
    toggleLinePrefix [] ⟨"a\nbc".toList, 1, 3⟩ = ⟨"a\nbc".toList, 1, 3⟩ :=
  toggleLinePrefix_nil_id ⟨"a\nbc".toList, 1, 3⟩ (by decide) (by decide)

/-! ## Current-line bookkeeping (`getCurrentLineRange`, renderer.js:376-385)

`lineStart = value.lastIndexOf('\n', pos-1) + 1` and
`lineEnd = value.indexOf('\n', pos)` (or the length when there is none). -/

/-- Start of the line holding position `pos`: the index right after the
last newline strictly before `pos`. -/
def lineStartAt (v : List Char) (pos : Nat) : Nat :=
  pos - ((v.take pos).reverse.takeWhile (fun c => !(c = '\n' : Bool))).length

/-- End (exclusive) of the line holding `pos`: the index of the first
newline at or after `pos`, or the text length. -/
def lineEndAt (v : List Char) (pos : Nat) : Nat :=
  pos + ((v.drop pos).takeWhile (fun c => !(c = '\n' : Bool))).length

/-- Predicate: `pre` is a valid line-left context: empty or newline-terminated. -/
def endsNl (pre : List Char) : Prop := pre = [] ∨ ∃ q, pre = q ++ ['\n']

/-- Predicate: `post` is a valid line-right context: empty or newline-initial. -/
def startsNl (post : List Char) : Prop := post = [] ∨ ∃ r, post = '\n' :: r

theorem takeWhile_append_all {p : Char → Bool} {a : List Char} (b : List Char)
    (h : ∀ x ∈ a, p x = true) : (a ++ b).takeWhile p = a ++ b.takeWhile p := by
  induction a with
  | nil => simp
  | cons c cs ih =>
    rw [List.cons_append, List.takeWhile_cons, if_pos (h c (by simp)),
      ih (fun x hx => h x (by simp [hx])), List.cons_append]

theorem takeWhile_cons_neg {p : Char → Bool} {c : Char} (l : List Char)
    (h : p c = false) : (c :: l).takeWhile p = [] := by
  rw [List.takeWhile_cons, if_neg (by simp [h])]

theorem dropWhile_append_all {p : Char → Bool} {a : List Char} (b : List Char)
    (h : ∀ x ∈ a, p x = true) : (a ++ b).dropWhile p = b.dropWhile p := by
  induction a with
  | nil => simp
  | cons c cs ih =>
    rw [List.cons_append, List.dropWhile_cons, if_pos (h c (by simp))]
    exact ih (fun x hx => h x (by simp [hx]))

theorem dropWhile_cons_neg {p : Char → Bool} {c : Char} (l : List Char)
    (h : p c = false) : (c :: l).dropWhile p = c :: l := by
  rw [List.dropWhile_cons, if_neg (by simp [h])]

theorem lineStartAt_decomp (pre line post : List Char) (pos : Nat)
    (hpre : endsNl pre) (hnl : '\n' ∉ line)
    (h1 : pre.length ≤ pos) (h2 : pos ≤ pre.length + line.length) :
    lineStartAt (pre ++ line ++ post) pos = pre.length := by
  have htake : (pre ++ line ++ post).take pos = pre ++ line.take (pos - pre.length) := by
    rw [List.append_assoc, List.take_append_eq_append_take,
      List.take_of_length_le h1, List.take_append_eq_append_take]
    have : pos - pre.length - line.length = 0 := by omega
    rw [this, List.take_zero, List.append_nil]
  have hlinelen : (line.take (pos - pre.length)).length = pos - pre.length := by
    rw [List.length_take]; omega
  have hmem : ∀ x ∈ (line.take (pos - pre.length)).reverse,
      (!(x = '\n' : Bool)) = true := by
    intro x hx
    have : x ∈ line := (List.take_sublist _ _).mem (List.mem_reverse.mp hx)
    simp only [Bool.not_eq_true', decide_eq_false_iff_not]
    intro hxe
    exact hnl (hxe ▸ this)
  unfold lineStartAt
  rw [htake, List.reverse_append, takeWhile_append_all _ hmem]
  rcases hpre with rfl | ⟨q, rfl⟩
  · simp only [List.reverse_nil, List.takeWhile_nil, List.append_nil]
    rw [List.length_reverse, hlinelen]
    omega
  · have hq : ((q ++ ['\n']).reverse) = '\n' :: q.reverse := by simp
    rw [hq, takeWhile_cons_neg _ (by simp), List.append_nil, List.length_reverse,
      hlinelen]
    simp only [List.length_append, List.length_singleton] at h1 ⊢
    omega

theorem lineEndAt_decomp (pre line post : List Char) (pos : Nat)
    (hpost : startsNl post) (hnl : '\n' ∉ line)
    (h1 : pre.length ≤ pos) (h2 : pos ≤ pre.length + line.length) :
    lineEndAt (pre ++ line ++ post) pos = pre.length + line.length := by
  have hdrop : (pre ++ line ++ post).drop pos = line.drop (pos - pre.length) ++ post := by
    rw [List.append_assoc, List.drop_append_eq_append_drop,
      List.drop_of_length_le h1, List.nil_append,
      List.drop_append_eq_append_drop]
    have : pos - pre.length - line.length = 0 := by omega
    rw [this, List.drop_zero]
  have hmem : ∀ x ∈ line.drop (pos - pre.length), (!(x = '\n' : Bool)) = true := by
    intro x hx
    have : x ∈ line := (List.drop_sublist _ _).mem hx
    simp only [Bool.not_eq_true', decide_eq_false_iff_not]
    intro hxe
    exact hnl (hxe ▸ this)
  unfold lineEndAt
  rw [hdrop, takeWhile_append_all _ hmem]
  have hdl : (line.drop (pos - pre.length)).length = line.length - (pos - pre.length) := by
    rw [List.length_drop]
  rcases hpost with rfl | ⟨r, rfl⟩
  · simp only [List.takeWhile_nil, List.append_nil]
    rw [hdl]
    omega
  · rw [takeWhile_cons_neg _ (by simp), List.append_nil, hdl]
    omega

/-! ## Heading level adjustment (`adjustHeadingLevel`, renderer.js:407-429) -/

/-- The heading test `line.match(/^(#{1,6})\s+(.*)$/)` : a run of one to
six `#` followed by at least one whitespace character; the captured text
is everything after the (greedy) whitespace run.  Seven or more `#`, or a
missing whitespace, fail the match, as the regex does.  Because JS `.`
excludes the line terminators (all of which are `\s`, so backtracking the
`\s+` cannot rescue the match), the regex matches exactly when the
remainder after the maximal whitespace run is terminator-free. -/
def headingMatch (line : List Char) : Option (Nat × List Char) :=
  let k := (line.takeWhile (fun c => c == '#')).length
  if 1 ≤ k ∧ k ≤ 6 then
    match line.drop k with
    | c :: rest =>
      if isJsSpace c then
        if ((c :: rest).dropWhile isJsSpace).all (fun c2 => !isLineTerm c2) then
          some (k, (c :: rest).dropWhile isJsSpace)
        else none
      else none
    | [] => none
  else none

/-- The clamping of the new heading level to `1..6` (renderer.js:416-423). -/
def clampLevel (x : Int) : Nat :=
  if x < 1 then 1 else if 6 < x then 6 else x.toNat

/-- Model of `adjustHeadingLevel(delta)` (renderer.js:407-429): rewrite the current
line's heading to level `clamp(k+delta,1,6)` when it matches the heading
regex, otherwise do nothing. -/
def adjustHeadingLevel (delta : Int) (st : EditorState) : EditorState :=
  match headingMatch ((st.value.drop (lineStartAt st.value st.selStart)).take
      (lineEndAt st.value st.selStart - lineStartAt st.value st.selStart)) with
  | none => st
  | some (k, text) =>
    ⟨st.value.take (lineStartAt st.value st.selStart)
        ++ (List.replicate (clampLevel ((k : Int) + delta)) '#' ++ ' ' :: text)
        ++ st.value.drop (lineEndAt st.value st.selStart),
      lineStartAt st.value st.selStart +
        (List.replicate (clampLevel ((k : Int) + delta)) '#' ++ ' ' :: text).length,
      lineStartAt st.value st.selStart +
        (List.replicate (clampLevel ((k : Int) + delta)) '#' ++ ' ' :: text).length⟩

theorem slice_decomp (pre line post : List Char) :
    ((pre ++ line ++ post).drop pre.length).take
      ((pre.length + line.length) - pre.length) = line := by
  rw [List.append_assoc, List.drop_left]
  have h : pre.length + line.length - pre.length = line.length := by omega
  rw [h, List.take_left]

theorem take_pre (pre line post : List Char) :
    (pre ++ line ++ post).take pre.length = pre := by
  rw [List.append_assoc, List.take_left]

theorem drop_post (pre line post : List Char) :
    (pre ++ line ++ post).drop (pre.length + line.length) = post := by
  rw [← List.length_append, List.drop_left]

theorem isJsSpace_ne_hash {c : Char} (h : isJsSpace c = true) : c ≠ '#' := by
  intro hc
  subst hc
  exact absurd h (by decide)

theorem headingMatch_eq_some (k : Nat) (ws text : List Char)
    (hk1 : 1 ≤ k) (hk6 : k ≤ 6) (hws : ws ≠ [])
    (hwsp : ∀ c ∈ ws, isJsSpace c = true)
    (htext : ∀ c l, text = c :: l → isJsSpace c = false)
    (hterm : ∀ c ∈ text, isLineTerm c = false) :
    headingMatch (List.replicate k '#' ++ ws ++ text) = some (k, text) := by
  obtain ⟨w, ws2, rfl⟩ : ∃ w ws2, ws = w :: ws2 := by
    cases ws with
    | nil => exact absurd rfl hws
    | cons w ws2 => exact ⟨w, ws2, rfl⟩
  have hwsp2 : isJsSpace w = true := hwsp w (by simp)
  have htw : (List.replicate k '#' ++ (w :: ws2) ++ text).takeWhile
      (fun c => c == '#') = List.replicate k '#' := by
    rw [List.append_assoc,
      takeWhile_append_all _ (fun x hx => by
        rw [List.eq_of_mem_replicate hx]
        simp),
      List.cons_append,
      takeWhile_cons_neg _ (by
        simp only [beq_eq_false_iff_ne, ne_eq]
        exact isJsSpace_ne_hash hwsp2),
      List.append_nil]
  have hdropk : (List.replicate k '#' ++ (w :: ws2) ++ text).drop k
      = (w :: ws2) ++ text := by
    rw [List.append_assoc]
    have := List.drop_left (List.replicate k '#') ((w :: ws2) ++ text)
    rwa [List.length_replicate] at this
  unfold headingMatch
  rw [htw, List.length_replicate, if_pos ⟨hk1, hk6⟩, hdropk]
  simp only [List.cons_append]
  rw [if_pos hwsp2]
  have hdw : ((w :: (ws2 ++ text)).dropWhile isJsSpace) = text := by
    have : (w :: (ws2 ++ text)) = (w :: ws2) ++ text := by simp
    rw [this, dropWhile_append_all _ (fun x hx => hwsp x hx)]
    cases text with
    | nil => simp
    | cons c l => exact dropWhile_cons_neg _ (htext c l rfl)
  have hallt : (text.all fun c2 => !isLineTerm c2) = true := by
    rw [List.all_eq_true]
    intro c hc
    simp [hterm c hc]
  rw [hdw, if_pos hallt]

/-- C3: on a line of the form `#…# ⟨ws⟩ text` (1–6 hashes, then whitespace,
then regex-matchable text: no line terminator, as the `(.*)$` group
requires), `adjustHeadingLevel(delta)` rewrites exactly that line to
`clamp(k+delta,1,6)` hashes, one space and the unchanged heading text,
leaving the rest of the document (`pre` and `post`) unchanged; and when the
current line does not match the heading pattern the whole state is
untouched. -/
theorem adjustHeadingLevel_spec (st : EditorState) (delta : Int)
    (pre line post : List Char)
    (hv : st.value = pre ++ line ++ post)
    (hpre : endsNl pre) (hpost : startsNl post) (hnl : '\n' ∉ line)
    (h1 : pre.length ≤ st.selStart) (h2 : st.selStart ≤ pre.length + line.length) :
    (∀ k ws text, line = List.replicate k '#' ++ ws ++ text →
      1 ≤ k → k ≤ 6 → ws ≠ [] → (∀ c ∈ ws, isJsSpace c = true) →
      (∀ c l, text = c :: l → isJsSpace c = false) →
      (∀ c ∈ text, isLineTerm c = false) →
      (adjustHeadingLevel delta st).value =
        pre ++ (List.replicate (clampLevel ((k : Int) + delta)) '#' ++ ' ' :: text) ++ post)
    ∧ (headingMatch line = none → adjustHeadingLevel delta st = st) := by
  have hls : lineStartAt st.value st.selStart = pre.length := by
    rw [hv]
    exact lineStartAt_decomp pre line post st.selStart hpre hnl h1 h2
  have hle : lineEndAt st.value st.selStart = pre.length + line.length := by
    rw [hv]
    exact lineEndAt_decomp pre line post st.selStart hpost hnl h1 h2
  have hslice : (st.value.drop (lineStartAt st.value st.selStart)).take
      (lineEndAt st.value st.selStart - lineStartAt st.value st.selStart) = line := by
    rw [hls, hle, hv]
    exact slice_decomp pre line post
  constructor
  · intro k ws text hline hk1 hk6 hws hwsp htext hterm
    have hmatch : headingMatch line = some (k, text) := by
      rw [hline]
      exact headingMatch_eq_some k ws text hk1 hk6 hws hwsp htext hterm
    unfold adjustHeadingLevel
    rw [hslice, hmatch]
    simp only
    rw [hls, hle, hv, take_pre, drop_post]
  · intro hnone
    unfold adjustHeadingLevel
    rw [hslice, hnone]

/-- C3 (witness): demoting the heading `"## hi"` (the whole document, cursor
at position 3) by `delta = 1` yields `"### hi"`; and on the non-heading
document `"plain"` the command is a no-op. -/
theorem adjustHeadingLevel_spec_witness :
    (adjustHeadingLevel 1 ⟨"## hi".toList, 3, 3⟩).value = "### hi".toList ∧
    adjustHeadingLevel 1 ⟨"plain".toList, 2, 2⟩ = ⟨"plain".toList, 2, 2⟩ := by
  constructor
  · have h := (adjustHeadingLevel_spec ⟨"## hi".toList, 3, 3⟩ 1 [] "## hi".toList []
      (by decide) (Or.inl rfl) (Or.inl rfl) (by decide) (by decide) (by decide)).1
      2 [' '] "hi".toList (by decide) (by decide) (by decide) (by decide)
      (by decide) (by intro c l hcl; cases hcl; decide) (by decide)
    simpa using h
  · have h := (adjustHeadingLevel_spec ⟨"plain".toList, 2, 2⟩ 1 [] "plain".toList []
      (by decide) (Or.inl rfl) (Or.inl rfl) (by decide) (by decide) (by decide)).2
      (by decide)
    simpa using h

/-! ## List continuation on Enter (part_004:799-843, 1090-1180) -/

/-- The result record of `detectListMarker` for a list line.  In the
source, `marker` is the *normalised* marker the code computes
(`listMatch[2] + ' '` resp. `bullet + ' ' + checkbox + ' '`): the bullet
or `digits`+format followed by exactly one space. -/
structure ListInfo where
  indent : List Char
  marker : List Char
  number : Option Nat
  isTask : Bool
  fmt : Option Char
  deriving Repr, DecidableEq

/-- The exact integer value of a digit string.  `parseInt` returns this
value converted to an IEEE-754 double, i.e. rounded by [jsRound]. -/
def natOfDigits (ds : List Char) : Nat :=
  ds.foldl (fun n c => n * 10 + (c.toNat - '0'.toNat)) 0

/-- The bit length of a natural number (via the base-2 digit string). -/
def bitLen (v : Nat) : Nat := (Nat.toDigits 2 v).length

/-- Round a nonnegative integer to the nearest IEEE-754 binary64 value
(round to nearest, ties to even) — the value `parseInt` stores, and the
rounding applied after the `+ 1` of `getNextListMarker`.  Integers up to
`2^53` are exact; above, the value is rounded to a multiple of the unit in
the last place of its 53-bit significand. -/
def jsRound (v : Nat) : Nat :=
  if v ≤ 2 ^ 53 then v
  else
    let k := bitLen v - 53
    let q := v / 2 ^ k
    let r := v % 2 ^ k
    let h := 2 ^ (k - 1)
    (if h < r ∨ (r = h ∧ q % 2 = 1) then q + 1 else q) * 2 ^ k

theorem jsRound_exact (v : Nat) (hv : v ≤ 2 ^ 53) : jsRound v = v := by
  unfold jsRound
  rw [if_pos hv]

/-- The task-list pattern `/^(\s*)([-*+])\s+(\[[ xX]\])/` (part_004:1098):
optional indent, a bullet, at least one whitespace, then a checkbox. -/
def parseTask (line : List Char) : Option ListInfo :=
  match line.dropWhile isJsSpace with
  | b :: r2 =>
    if b = '-' ∨ b = '*' ∨ b = '+' then
      match r2 with
      | c0 :: _ =>
        if isJsSpace c0 then
          match r2.dropWhile isJsSpace with
          | '[' :: c :: ']' :: _ =>
            if c = ' ' ∨ c = 'x' ∨ c = 'X' then
              some ⟨line.takeWhile isJsSpace, [b, ' ', '[', c, ']', ' '], none, true, none⟩
            else none
          | _ => none
        else none
      | [] => none
    else none
  | [] => none

/-- The list pattern `/^(\s*)([-*+]|\d+([.)]))\s+(.*)$/` (part_004:1097):
optional indent, a bullet or `digits` + `.`/`)`, then at least one
whitespace and a `(.*)$` tail.  Since JS `.` excludes the line
terminators, which are all `\s` (so backtracking the `\s+` cannot rescue
the match), the tail matches exactly when the remainder after the maximal
whitespace run is terminator-free.  For an ordered item the number is
stored as `parseInt`'s double, and the format character is kept
(part_004:1120-1146). -/
def parseList (line : List Char) : Option ListInfo :=
  match line.dropWhile isJsSpace with
  | b :: r2 =>
    if b = '-' ∨ b = '*' ∨ b = '+' then
      match r2 with
      | c :: _ =>
        if isJsSpace c ∧ ((r2.dropWhile isJsSpace).all fun c2 => !isLineTerm c2) then
          some ⟨line.takeWhile isJsSpace, [b, ' '], none, false, none⟩
        else none
      | [] => none
    else
      if ((b :: r2).takeWhile Char.isDigit).length = 0 then none
      else
        match (b :: r2).drop ((b :: r2).takeWhile Char.isDigit).length with
        | f :: r3 =>
          if f = '.' ∨ f = ')' then
            match r3 with
            | c :: _ =>
              if isJsSpace c ∧ ((r3.dropWhile isJsSpace).all fun c2 => !isLineTerm c2) then
                some ⟨line.takeWhile isJsSpace,
                  ((b :: r2).takeWhile Char.isDigit) ++ [f, ' '],
                  some (jsRound (natOfDigits ((b :: r2).takeWhile Char.isDigit))),
                  false, some f⟩
              else none
            | [] => none
          else none
        | [] => none
  | [] => none

/-- Model of `detectListMarker` (part_004:1090-1161): the task pattern is tried
first, then the general list pattern. -/
def detectList (line : List Char) : Option ListInfo :=
  match parseTask line with
  | some i => some i
  | none => parseList line

/-- Model of `getNextListMarker` (part_004:1168-1180).  For an ordered
item, `listInfo.number + 1` is double arithmetic: the exact sum is rounded
back to a double by [jsRound].  Its string conversion is modelled by
`Nat.repr`, which coincides with JS `ToString` for integers up to `2^53`
(the range the claim's theorem confines itself to). -/
def getNextListMarker (li : ListInfo) : List Char :=
  if li.isTask then li.indent ++ li.marker
  else
    match li.number with
    | some n => li.indent ++ (Nat.repr (jsRound (n + 1))).toList ++ [li.fmt.getD '.', ' ']
    | none => li.indent ++ li.marker

/-- Model of `getCurrentLine` (part_004:1081-1084). -/
def currentLine (st : EditorState) : List Char :=
  (st.value.drop (lineStartAt st.value st.selStart)).take
    (lineEndAt st.value st.selStart - lineStartAt st.value st.selStart)

/-- The editor `keydown` Enter handler restricted to list lines
(part_004:799-843): an all-whitespace item is replaced by a single empty
line (the following newline, when present, is absorbed); otherwise, when
the cursor sits at or after the marker end, a new line holding the next
marker is appended after the current line; otherwise nothing happens. -/
def enterKeyOnList (st : EditorState) : EditorState :=
  match detectList (currentLine st) with
  | none => st
  | some info =>
    if ((currentLine st).drop (info.indent.length + info.marker.length)).all isJsSpace then
      ⟨st.value.take (lineStartAt st.value st.selStart) ++
          '\n' :: st.value.drop
            (match st.value.drop (lineEndAt st.value st.selStart) with
              | '\n' :: _ => lineEndAt st.value st.selStart + 1
              | _ => lineEndAt st.value st.selStart),
        lineStartAt st.value st.selStart, lineStartAt st.value st.selStart⟩
    else if lineStartAt st.value st.selStart + info.indent.length + info.marker.length
        ≤ st.selStart then
      ⟨st.value.take (lineEndAt st.value st.selStart) ++
          '\n' :: (getNextListMarker info ++ st.value.drop (lineEndAt st.value st.selStart)),
        lineEndAt st.value st.selStart + 1 + (getNextListMarker info).length,
        lineEndAt st.value st.selStart + 1 + (getNextListMarker info).length⟩
    else st

/-- C2 (counterexample): the ordered-item number is stored by `parseInt`
as an IEEE-754 double.  On the list line `"9007199254740993. x"` the
stored number rounds to `2^53 = 9007199254740992` and the double increment
rounds back to `2^53` (tie to even), so the program inserts the marker
`"9007199254740992. "` — not `(n+1)` `.` for the item's written number
`n = 9007199254740993`, which would be `"9007199254740994. "`. -/
theorem orderedMarker_rounds_at_double_limit :
    (detectList "9007199254740993. x".toList).map getNextListMarker
      = some "9007199254740992. ".toList
    ∧ natOfDigits "9007199254740993".toList + 1 = 9007199254740994
    ∧ "9007199254740992. ".toList ≠ "9007199254740994. ".toList := by
  refine ⟨by decide, by decide, by decide⟩

/-- C2 (amended): list continuation on Enter.  On a list line
(decomposition `pre ++ line ++ post`, cursor inside the line,
`detectListMarker` succeeding with `info`): when the content after the
detected marker is whitespace-only the line is replaced by a single empty
line (no marker is inserted); when it is non-empty and the cursor is at or
after the end of the detected marker, a new line is inserted after the
current one whose marker is the same indent plus — for an unordered or
task item — the identical detected marker, and — for an ordered item whose
stored number `n` satisfies `n + 1 ≤ 2^53` (so the double increment and
its string conversion are exact; beyond, the counterexample's rounding
takes over) with format `.` or `)` — the number `n+1`, the same format
character and a space. -/
theorem enterKeyOnList_spec (st : EditorState)
    (pre line post : List Char) (info : ListInfo)
    (hv : st.value = pre ++ line ++ post)
    (hpre : endsNl pre) (hpost : startsNl post) (hnl : '\n' ∉ line)
    (h1 : pre.length ≤ st.selStart) (h2 : st.selStart ≤ pre.length + line.length)
    (hdet : detectList line = some info) :
    ((line.drop (info.indent.length + info.marker.length)).all isJsSpace = true →
      enterKeyOnList st = ⟨pre ++ '\n' :: post.drop 1, pre.length, pre.length⟩)
    ∧ ((line.drop (info.indent.length + info.marker.length)).all isJsSpace = false →
      pre.length + info.indent.length + info.marker.length ≤ st.selStart →
      (info.isTask = true ∨ info.number = none →
        enterKeyOnList st =
          ⟨pre ++ line ++ '\n' :: (info.indent ++ info.marker ++ post),
            pre.length + line.length + 1 + (info.indent ++ info.marker).length,
            pre.length + line.length + 1 + (info.indent ++ info.marker).length⟩)
      ∧ (∀ n f, info.isTask = false → info.number = some n → info.fmt = some f →
        n + 1 ≤ 2 ^ 53 →
        enterKeyOnList st =
          ⟨pre ++ line ++ '\n' ::
              (info.indent ++ (Nat.repr (n + 1)).toList ++ [f, ' '] ++ post),
            pre.length + line.length + 1 +
              (info.indent ++ (Nat.repr (n + 1)).toList ++ [f, ' ']).length,
            pre.length + line.length + 1 +
              (info.indent ++ (Nat.repr (n + 1)).toList ++ [f, ' ']).length⟩)) := by
  have hls : lineStartAt st.value st.selStart = pre.length := by
    rw [hv]
    exact lineStartAt_decomp pre line post st.selStart hpre hnl h1 h2
  have hle : lineEndAt st.value st.selStart = pre.length + line.length := by
    rw [hv]
    exact lineEndAt_decomp pre line post st.selStart hpost hnl h1 h2
  have hcl : currentLine st = line := by
    unfold currentLine
    rw [hls, hle, hv]
    exact slice_decomp pre line post
  have hdrople : st.value.drop (pre.length + line.length) = post := by
    rw [hv]
    exact drop_post pre line post
  have htakels : st.value.take pre.length = pre := by
    rw [hv]
    exact take_pre pre line post
  have htakele : st.value.take (pre.length + line.length) = pre ++ line := by
    rw [hv, ← List.length_append, List.take_left]
  constructor
  · intro hall
    have hnls : st.value.drop
        (match st.value.drop (lineEndAt st.value st.selStart) with
          | '\n' :: _ => lineEndAt st.value st.selStart + 1
          | _ => lineEndAt st.value st.selStart) = post.drop 1 := by
      rw [hle, hdrople]
      rcases hpost with rfl | ⟨r, rfl⟩
      · simp [hdrople]
      · have : st.value.drop (pre.length + line.length + 1) = r := by
          have h := List.drop_drop 1 (pre.length + line.length) st.value
          rw [hdrople] at h
          simpa [Nat.add_comm] using h.symm
        simpa using this
    unfold enterKeyOnList
    rw [hcl, hdet]
    simp only
    rw [if_pos hall, hls, hnls, htakels]
  · intro hall hcur
    have hcond : lineStartAt st.value st.selStart + info.indent.length + info.marker.length
        ≤ st.selStart := by
      rw [hls]
      exact hcur
    have hbranch : enterKeyOnList st =
        ⟨pre ++ line ++ '\n' :: (getNextListMarker info ++ post),
          pre.length + line.length + 1 + (getNextListMarker info).length,
          pre.length + line.length + 1 + (getNextListMarker info).length⟩ := by
      unfold enterKeyOnList
      rw [hcl, hdet]
      simp only
      rw [if_neg (by simp [hall]), if_pos hcond, hle, hdrople, htakele]
    constructor
    · intro hun
      have hnm : getNextListMarker info = info.indent ++ info.marker := by
        unfold getNextListMarker
        rcases hun with ht | hn
        · rw [if_pos ht]
        · by_cases ht : info.isTask
          · rw [if_pos ht]
          · rw [if_neg ht, hn]
      rw [hbranch, hnm, List.append_assoc]
    · intro n f htask hnum hfmt hn53
      have hnm : getNextListMarker info =
          info.indent ++ (Nat.repr (n + 1)).toList ++ [f, ' '] := by
        unfold getNextListMarker
        rw [if_neg (by simp [htask]), hnum, hfmt]
        simp [jsRound_exact (n + 1) hn53, List.append_assoc]
      rw [hbranch, hnm]

/-- C2 (witness): pressing Enter at the end of the single-line document
`"1. a"` appends a new line with marker `"2. "`; the cursor lands after
the new marker. -/
theorem enterKeyOnList_spec_witness :
    enterKeyOnList ⟨"1. a".toList, 4, 4⟩ = ⟨"1. a\n2. ".toList, 8, 8⟩ := by
  have h := ((enterKeyOnList_spec ⟨"1. a".toList, 4, 4⟩ [] "1. a".toList []
      ⟨[], "1. ".toList, some 1, false, some '.'⟩ (by decide) (Or.inl rfl)
      (Or.inl rfl) (by decide) (by decide) (by decide) (by decide)).2
      (by decide) (by decide)).2 1 '.' (by decide) (by decide) (by decide)
      (by decide)
  rw [h]
  decide

/-! ## Debounce (src/util/debounce.js:12-24)

The wrapper keeps one pending timer.  A call clears the pending timer and
schedules `fn` with the current arguments `delay` ms later.  We model time
as `Nat`, the timer as `Option (deadline × args)` and log every run of
`fn` in order; between external events a due timer fires. -/

structure DebState (α : Type) where
  timer : Option (Nat × α)
  fired : List α
  deriving Repr

/-- One invocation of the debounced wrapper at time `t` with argument `a`:
`clearTimeout` of any pending timer, then `setTimeout(fn, d)` — the timer
is overwritten, never stacked. -/
def debCall {α : Type} (d t : Nat) (a : α) (s : DebState α) : DebState α :=
  { s with timer := some (t + d, a) }

/-- Let wall-clock time reach `t`: a pending timer whose deadline has
arrived fires (runs `fn` with its stored argument) and clears itself. -/
def debTick {α : Type} (t : Nat) (s : DebState α) : DebState α :=
  match s.timer with
  | some (tf, a) => if tf ≤ t then ⟨none, s.fired ++ [a]⟩ else s
  | none => s

/-- Let time run to infinity: any pending timer fires. -/
def debFlush {α : Type} (s : DebState α) : DebState α :=
  match s.timer with
  | some (_, a) => ⟨none, s.fired ++ [a]⟩
  | none => s

/-- Run the debounced wrapper over a trace of timestamped calls, then let
time pass. -/
def debRunAux {α : Type} (d : Nat) (s : DebState α) : List (Nat × α) → DebState α
  | [] => debFlush s
  | (t, a) :: rest => debRunAux d (debCall d t a (debTick t s)) rest

/-- All `fn` executions produced by a call trace against a fresh debounced
wrapper with delay `d`. -/
def debounceRun {α : Type} (d : Nat) (events : List (Nat × α)) : List α :=
  (debRunAux d ⟨none, []⟩ events).fired

/-- The argument of the last call of the trace (`a` if the trace is empty). -/
def lastArg {α : Type} (a : α) : List (Nat × α) → α
  | [] => a
  | (_, b) :: rest => lastArg b rest

/-- Each timestamp is no earlier than the previous one and arrives strictly
less than `d` after it. -/
def debChain {α : Type} (d : Nat) : Nat → List (Nat × α) → Bool
  | _, [] => true
  | tp, (t, _) :: rest => tp ≤ t && t < tp + d && debChain d t rest

theorem debRunAux_pending {α : Type} (d : Nat) (es : List (Nat × α)) :
    ∀ (tp : Nat) (a : α) (log : List α), debChain d tp es = true →
      (debRunAux d ⟨some (tp + d, a), log⟩ es).fired = log ++ [lastArg a es] := by
  induction es with
  | nil => intro tp a log _; rfl
  | cons e rest ih =>
    obtain ⟨t, b⟩ := e
    intro tp a log hch
    simp only [debChain, Bool.and_eq_true, decide_eq_true_eq] at hch
    obtain ⟨⟨hle, hlt⟩, hch2⟩ := hch
    have hnot : ¬ tp + d ≤ t := by omega
    show (debRunAux d (debCall d t b (debTick t ⟨some (tp + d, a), log⟩)) rest).fired = _
    rw [show debTick t ⟨some (tp + d, a), log⟩ = ⟨some (tp + d, a), log⟩ by
      simp [debTick, hnot]]
    show (debRunAux d ⟨some (t + d, b), log⟩ rest).fired = _
    rw [ih t b log (by simpa using hch2)]
    rfl

/-- C4: for every non-empty trace of calls in which each call arrives
strictly less than `d` after the previous one, the debounced wrapper runs
`fn` exactly once, with the arguments of the last call — every earlier
pending run is cancelled by the newer call before its deadline. -/
theorem debounce_coalesces {α : Type} (d t : Nat) (a : α) (es : List (Nat × α))
    (h : debChain d t es = true) :
    debounceRun d ((t, a) :: es) = [lastArg a es] := by
  unfold debounceRun debRunAux
  rw [show debCall d t a (debTick t ⟨none, []⟩) = ⟨some (t + d, a), []⟩ by
    simp [debTick, debCall]]
  rw [debRunAux_pending d es t a [] h]
  rfl

/-- C4 (witness): three rapid calls (delay 10, gaps of 3) run the function
once, with the third call's argument. -/
theorem debounce_coalesces_witness :
    debounceRun 10 [(0, 1), (3, 2), (6, 3)] = [3] :=
  debounce_coalesces 10 0 1 [(3, 2), (6, 3)] (by decide)

/-! ## FileService (src/main/services/FileService.js)

File I/O is modelled by an abstract filesystem: `read p enc` is the
outcome of `fs.readFileSync(p, enc)` (content, or the thrown error) and
`fsExists` models `fs.existsSync`.  The user-visible effects of an
operation are returned as an event list. -/

structure FsIO where
  read : String → String → Except String String
  fsExists : String → Bool

inductive FEvent
  | errorDialog (title msg : String)
  | fileOpened (path content : String)
  | fileImported (path content : String)
  deriving Repr, DecidableEq

/-- Model of `FileService.readFileContent` (FileService.js:35-48): try UTF-8, then
fall back to Latin1, and give up (`null`) only when both fail. -/
def readFileContent (fs : FsIO) (p : String) : Option String :=
  match fs.read p "utf-8" with
  | .ok c => some c
  | .error _ =>
    match fs.read p "latin1" with
    | .ok c => some c
    | .error _ => none

/-- Model of `FileService.openFile` (FileService.js:54-71): a nonexistent path is a
silent no-op; a read that throws shows an error dialog. -/
def openFile (fs : FsIO) (p : String) : List FEvent :=
  if fs.fsExists p then
    match fs.read p "utf-8" with
    | .ok c => [.fileOpened p c]
    | .error e => [.errorDialog "打开失败" ("无法打开文件: " ++ e)]
  else []

/-- Model of `FileService.createMarkdownFile`'s error reporting
(FileService.js:77-105): `wr` is the outcome of
`fs.writeFileSync(filePath, '', 'utf-8')` at the chosen free path `p`
(the name search itself is modelled for C8 by `createMarkdownFile`); the
catch shows the `创建失败` dialog with the thrown message, success
announces the new empty file. -/
def createMarkdownFileEvents (wr : Except String Unit) (p : String) : List FEvent :=
  match wr with
  | .ok _ => [.fileOpened p ""]
  | .error e => [.errorDialog "创建失败" ("无法创建文件: " ++ e)]

/-- Model of `FileService.importTextFile` (FileService.js:110-139), after the user
picked `chosen` in the open dialog (`none` = cancelled). -/
def importTextFile (fs : FsIO) (chosen : Option String) : List FEvent :=
  match chosen with
  | none => []
  | some p =>
    match readFileContent fs p with
    | none => [.errorDialog "导入失败" "无法读取文件内容或编码不支持"]
    | some c => [.fileImported p c]

/-- A concrete filesystem on which the UTF-8 read of every file throws but
the Latin1 read succeeds. -/
def fsLatin1Only : FsIO :=
  ⟨fun _ enc => if enc = "utf-8" then .error "bad" else .ok "abc", fun _ => true⟩

/-- C5 (counterexample): the claim "no file operation performs any
recovery or retry before reporting failure" is false: on a file whose
UTF-8 read throws, `readFileContent` retries with Latin1 and succeeds
instead of failing — a recovery step. -/
theorem readFileContent_retries :
    fsLatin1Only.read "f.txt" "utf-8" = .error "bad" ∧
    readFileContent fsLatin1Only "f.txt" = some "abc" := by
  constructor <;> rfl

/-- C5 (amended): `readFileContent` first tries UTF-8 and, when that
throws, retries with Latin1 (one recovery step), failing only when both
encodings fail; a failed import then shows the error dialog, an open or a
create whose I/O throws shows the error dialog, but opening a nonexistent
path is a silent no-op. -/
theorem fileService_error_reporting (fs : FsIO) (p c e : String) :
    (readFileContent fs p = none ↔
      (∃ e1, fs.read p "utf-8" = .error e1) ∧ ∃ e2, fs.read p "latin1" = .error e2)
    ∧ (fs.read p "utf-8" = .ok c → readFileContent fs p = some c)
    ∧ (fs.read p "utf-8" = .error e → fs.read p "latin1" = .ok c →
        readFileContent fs p = some c)
    ∧ (readFileContent fs p = none →
        importTextFile fs (some p) = [.errorDialog "导入失败" "无法读取文件内容或编码不支持"])
    ∧ (readFileContent fs p = some c → importTextFile fs (some p) = [.fileImported p c])
    ∧ (fs.fsExists p = false → openFile fs p = [])
    ∧ (fs.fsExists p = true → fs.read p "utf-8" = .error e →
        openFile fs p = [.errorDialog "打开失败" ("无法打开文件: " ++ e)])
    ∧ (createMarkdownFileEvents (.error e) p
        = [.errorDialog "创建失败" ("无法创建文件: " ++ e)])
    ∧ (createMarkdownFileEvents (.ok ()) p = [.fileOpened p ""]) := by
  refine ⟨?_, ?_, ?_, ?_, ?_, ?_, ?_, rfl, rfl⟩
  · unfold readFileContent
    cases h1 : fs.read p "utf-8" with
    | ok c1 => simp [h1]
    | error e1 =>
      cases h2 : fs.read p "latin1" with
      | ok c2 => simp [h2]
      | error e2 => simp [h2]
  · intro h
    unfold readFileContent
    rw [h]
  · intro h1 h2
    unfold readFileContent
    rw [h1, h2]
  · intro h
    simp [importTextFile, h]
  · intro h
    simp [importTextFile, h]
  · intro h
    unfold openFile
    rw [h]
    rfl
  · intro h1 h2
    unfold openFile
    rw [h1, h2]
    rfl

/-- C5 (witness): the amended behaviour at the concrete filesystem
`fsLatin1Only`: the UTF-8 failure is recovered via Latin1 and the import
succeeds without a dialog, while a create whose write throws `EPERM`
shows the create-failure dialog. -/
theorem fileService_error_reporting_witness :
    readFileContent fsLatin1Only "f.txt" = some "abc" ∧
    importTextFile fsLatin1Only (some "f.txt") = [.fileImported "f.txt" "abc"] ∧
    createMarkdownFileEvents (.error "EPERM") "f.txt"
      = [.errorDialog "创建失败" ("无法创建文件: " ++ "EPERM")] :=
  ⟨(fileService_error_reporting fsLatin1Only "f.txt" "abc" "bad").2.2.1 rfl rfl,
   (fileService_error_reporting fsLatin1Only "f.txt" "abc" "bad").2.2.2.2.1
     ((fileService_error_reporting fsLatin1Only "f.txt" "abc" "bad").2.2.1 rfl rfl),
   (fileService_error_reporting fsLatin1Only "f.txt" "abc" "EPERM").2.2.2.2.2.2.2.1⟩

/-! ## Settings persistence (part_010:293-319)

`readSettings` / `writeSettings` wrap `fs` and `JSON` calls in
`try`/`catch`; the possible outcomes of those external calls are passed in
explicitly.  A settings object is modelled as a flat key-value record. -/

/-- Model of `readSettings` (part_010:293-303): parse `settings.json` when it
exists, and fall back to the empty object `{}` when the file is missing,
unreadable or unparseable.  `ex` models `fs.existsSync`, `rd` the read,
`parse` the `JSON.parse` outcome. -/
def readSettings (ex : Bool) (rd : Except String String)
    (parse : String → Except String (List (String × String))) :
    List (String × String) :=
  if ex then
    match rd with
    | .ok s =>
      match parse s with
      | .ok o => o
      | .error _ => []
    | .error _ => []
  else []

/-- Model of `writeSettings` (part_010:310-319): `true` exactly when the
serialised write went through, `false` when it threw — the exception is
swallowed. -/
def writeSettings (wr : Except String Unit) : Bool :=
  match wr with
  | .ok _ => true
  | .error _ => false

/-- C6: settings persistence is total and non-throwing: `readSettings`
returns the parsed object when the file exists and parses, and `{}` when
it is missing, unreadable or unparseable; `writeSettings` returns `true`
exactly when the write succeeded and `false` otherwise (both functions
are total, so no exception propagates). -/
theorem settings_total (ex : Bool) (rd : Except String String)
    (parse : String → Except String (List (String × String)))
    (s : String) (o : List (String × String)) (e : String) :
    (ex = true → rd = .ok s → parse s = .ok o → readSettings ex rd parse = o)
    ∧ (ex = false → readSettings ex rd parse = [])
    ∧ (rd = .error e → readSettings ex rd parse = [])
    ∧ (ex = true → rd = .ok s → parse s = .error e → readSettings ex rd parse = [])
    ∧ (∀ wr : Except String Unit, writeSettings wr = true ↔ wr = .ok ()) := by
  refine ⟨?_, ?_, ?_, ?_, ?_⟩
  · intro hex hrd hp
    simp [readSettings, hex, hrd, hp]
  · intro hex
    simp [readSettings, hex]
  · intro hrd
    cases ex <;> simp [readSettings, hrd]
  · intro hex hrd hp
    simp [readSettings, hex, hrd, hp]
  · intro wr
    cases wr with
    | ok u => cases u; simp [writeSettings]
    | error e2 => simp [writeSettings]

/-- C6 (witness): a concrete run: an existing, parseable file yields the
parsed object; a missing file yields `{}`; a failing write reports
`false`. -/
theorem settings_total_witness :
    readSettings true (.ok "\x7b\x7d") (fun _ => .ok [("theme", "github")])
        = [("theme", "github")]
    ∧ readSettings false (.ok "\x7b\x7d") (fun _ => .ok [("theme", "github")]) = []
    ∧ writeSettings (.error "EACCES") = false := by
  refine ⟨?_, ?_, ?_⟩
  · exact (settings_total true (.ok "\x7b\x7d") (fun _ => .ok [("theme", "github")])
      "\x7b\x7d" [("theme", "github")] "e").1 rfl rfl rfl
  · exact (settings_total false (.ok "\x7b\x7d") (fun _ => .ok [("theme", "github")])
      "\x7b\x7d" [("theme", "github")] "e").2.1 rfl
  · have h := ((settings_total true (.ok "\x7b\x7d")
      (fun _ => .ok [("theme", "github")]) "\x7b\x7d" [("theme", "github")] "e").2.2.2.2
      (Except.error "EACCES"))
    cases hw : writeSettings (Except.error "EACCES") with
    | false => rfl
    | true => exact absurd (h.mp hw) (by simp)

/-! ## i18n translation lookup (preferences.js:692-714) -/

/-- Association-list lookup modelling `this.loadedLanguage[key]`. -/
def langLookup : List (String × String) → String → Option String
  | [], _ => none
  | (k, v) :: rest, key => if key = k then some v else langLookup rest key

/-- A JavaScript value reachable by `this.loadedLanguage[key]`: an own
string entry of the flat JSON table, or a function (or the prototype
object itself, for `__proto__`) inherited from `Object.prototype`. -/
inductive JsProp where
  | str (s : String)
  | fn (name : String)
  deriving Repr, DecidableEq

/-- The property keys every plain JS object inherits from
`Object.prototype` (so `table[key]` is not `undefined` for them even when
the loaded JSON has no such entry). -/
def objectProtoKeys : List String :=
  ["constructor", "hasOwnProperty", "isPrototypeOf", "propertyIsEnumerable",
   "toLocaleString", "toString", "valueOf", "__defineGetter__",
   "__defineSetter__", "__lookupGetter__", "__lookupSetter__", "__proto__"]

/-- Model of the property access `this.loadedLanguage[key]`
(preferences.js:698) on a plain object parsed from flat JSON: own entries
first, then the `Object.prototype` chain, then `undefined`. -/
def propAccess (table : List (String × String)) (key : String) : Option JsProp :=
  match langLookup table key with
  | some v => some (.str v)
  | none => if key ∈ objectProtoKeys then some (.fn key) else none

/-- Model of `I18n.t` (preferences.js:692-714) with a loaded language
table and no parameter object: a falsy key (`null` → `none`, or the empty
string) returns `key || ''`, i.e. `''`; otherwise the result of the
property access, falling back to the key itself only when that access
yields `undefined` — inherited `Object.prototype` members are returned
as-is (the `params` replacement is skipped for non-strings).  The
function is total. -/
def i18nT (table : List (String × String)) (key : Option String) : JsProp :=
  match key with
  | none => .str ""
  | some k =>
    if k = "" then .str ""
    else
      match propAccess table k with
      | some v => v
      | none => .str k

/-- C9 (counterexample): the key fallback fails on inherited properties:
with a loaded table having no entry for `"toString"`, `t('toString')`
returns the function inherited from `Object.prototype`, not the key
itself. -/
theorem i18nT_proto_not_key :
    i18nT [("menu.file", "File")] (some "toString") = JsProp.fn "toString"
    ∧ i18nT [("menu.file", "File")] (some "toString") ≠ JsProp.str "toString" := by
  refine ⟨by decide, by decide⟩

/-- C9 (amended): translation lookup is total: with a loaded table,
`t(key)` returns the table's entry when one exists, the key itself when
no entry exists and the key is not an inherited `Object.prototype`
property (for inherited keys such as `toString` the inherited member is
returned instead, as the counterexample shows), and the empty string when
the key is null or empty; being a total function, it never throws. -/
theorem i18nT_spec (table : List (String × String)) (k v : String) :
    (i18nT table none = .str "")
    ∧ (i18nT table (some "") = .str "")
    ∧ (k ≠ "" → langLookup table k = some v → i18nT table (some k) = .str v)
    ∧ (k ≠ "" → langLookup table k = none → k ∉ objectProtoKeys →
        i18nT table (some k) = .str k)
    ∧ (k ≠ "" → langLookup table k = none → k ∈ objectProtoKeys →
        i18nT table (some k) = .fn k) := by
  refine ⟨rfl, rfl, ?_, ?_, ?_⟩
  · intro hk hl
    simp [i18nT, propAccess, hk, hl]
  · intro hk hl hm
    simp [i18nT, propAccess, hk, hl, hm]
  · intro hk hl hm
    simp [i18nT, propAccess, hk, hl, hm]

/-- C9 (witness): lookup, non-inherited-key fallback, inherited-key and
empty-key behaviour on a concrete table. -/
theorem i18nT_spec_witness :
    i18nT [("menu.file", "File")] (some "menu.file") = .str "File"
    ∧ i18nT [("menu.file", "File")] (some "menu.edit") = .str "menu.edit"
    ∧ i18nT [("menu.file", "File")] (some "valueOf") = .fn "valueOf"
    ∧ i18nT [("menu.file", "File")] (some "") = .str "" :=
  ⟨(i18nT_spec [("menu.file", "File")] "menu.file" "File").2.2.1
      (by decide) (by simp [langLookup]),
   (i18nT_spec [("menu.file", "File")] "menu.edit" "File").2.2.2.1
      (by decide) (by simp [langLookup]) (by decide),
   (i18nT_spec [("menu.file", "File")] "valueOf" "File").2.2.2.2
      (by decide) (by simp [langLookup]) (by decide),
   (i18nT_spec [("menu.file", "File")] "x" "y").2.1⟩

/-! ## New-file creation (`FileService.createMarkdownFile`, FileService.js:77-105)

A filesystem directory is modelled as an association list from paths to
contents; `path.join(dir, name)` is modelled by the pair `⟨dir, name⟩`
(injective in the name for a fixed directory).  The `while` loop of the
source tries `新建文档.md`, `新建文档 (1).md`, … and is modelled with
fuel `|fs| + 1`; a run that finds no free name within the fuel returns
`none` (in reality the loop simply keeps counting). -/

structure FPath where
  dir : String
  name : String
  deriving Repr, DecidableEq

def lookupF : List (FPath × String) → FPath → Option String
  | [], _ => none
  | (q, c) :: rest, p => if p = q then some c else lookupF rest p

/-- Model of `fs.existsSync` on the modelled directory contents. -/
def existsF (fs : List (FPath × String)) (p : FPath) : Bool :=
  (lookupF fs p).isSome

/-- The candidate file names `新建文档.md`, `新建文档 (1).md`, … -/
def newDocName (i : Nat) : String :=
  if i = 0 then "新建文档.md" else "新建文档 (" ++ Nat.repr i ++ ").md"

/-- The `while (fs.existsSync(filePath))` counter loop. -/
def findFreeName (fs : List (FPath × String)) (dir : String) : Nat → Nat → Option Nat
  | 0, _ => none
  | fuel + 1, i =>
    if existsF fs ⟨dir, newDocName i⟩ then findFreeName fs dir fuel (i + 1) else some i

/-- Model of `createMarkdownFile`: find the first free candidate name and write an
empty file there (`writeFileSync` = prepend the new binding). -/
def createMarkdownFile (fs : List (FPath × String)) (dir : String) :
    Option (List (FPath × String) × FPath) :=
  match findFreeName fs dir (fs.length + 1) 0 with
  | some i => some ((⟨dir, newDocName i⟩, "") :: fs, ⟨dir, newDocName i⟩)
  | none => none

theorem findFreeName_spec (fs : List (FPath × String)) (dir : String) :
    ∀ (fuel i0 i : Nat), findFreeName fs dir fuel i0 = some i →
      existsF fs ⟨dir, newDocName i⟩ = false ∧ i0 ≤ i ∧
      ∀ j, i0 ≤ j → j < i → existsF fs ⟨dir, newDocName j⟩ = true := by
  intro fuel
  induction fuel with
  | zero => intro i0 i h; exact absurd h (by simp [findFreeName])
  | succ fuel ih =>
    intro i0 i h
    unfold findFreeName at h
    by_cases hex : existsF fs ⟨dir, newDocName i0⟩
    · rw [if_pos hex] at h
      obtain ⟨hfree, hle, hall⟩ := ih (i0 + 1) i h
      refine ⟨hfree, by omega, ?_⟩
      intro j hj1 hj2
      by_cases hji : j = i0
      · rw [hji]
        exact hex
      · exact hall j (by omega) hj2
    · rw [if_neg hex] at h
      obtain rfl := Option.some.inj h
      exact ⟨by simpa using hex, le_refl _, fun j hj1 hj2 => absurd hj2 (by omega)⟩

/-- C8: creating a new Markdown file never overwrites an existing file:
every completed run of `createMarkdownFile` writes to a candidate path
`新建文档.md`, `新建文档 (1).md`, … that did not exist, every earlier
candidate in the sequence did exist, and every pre-existing file keeps
its content. -/
theorem createMarkdownFile_safe (fs : List (FPath × String)) (dir : String)
    (fsOut : List (FPath × String)) (p : FPath)
    (h : createMarkdownFile fs dir = some (fsOut, p)) :
    existsF fs p = false
    ∧ (∃ i, p = ⟨dir, newDocName i⟩ ∧
        ∀ j < i, existsF fs ⟨dir, newDocName j⟩ = true)
    ∧ (∀ q c, lookupF fs q = some c → lookupF fsOut q = some c) := by
  unfold createMarkdownFile at h
  cases hf : findFreeName fs dir (fs.length + 1) 0 with
  | none => rw [hf] at h; exact absurd h (by simp)
  | some i =>
    rw [hf] at h
    obtain ⟨hfs, hp⟩ := Prod.mk.injEq .. ▸ Option.some.inj h
    obtain ⟨hfree, _, hall⟩ := findFreeName_spec fs dir (fs.length + 1) 0 i hf
    subst hp
    subst hfs
    refine ⟨hfree, ⟨i, rfl, fun j hj => hall j (Nat.zero_le j) hj⟩, ?_⟩
    intro q c hq
    unfold lookupF
    by_cases hqp : q = (⟨dir, newDocName i⟩ : FPath)
    · subst hqp
      unfold existsF at hfree
      rw [hq] at hfree
      simp at hfree
    · rw [if_neg hqp]
      exact hq

/-- C8 (witness): in a directory already holding `新建文档.md`, the
operation writes to `新建文档 (1).md` and the pre-existing file's content
survives. -/
theorem createMarkdownFile_safe_witness :
    existsF [(⟨"d", "新建文档.md"⟩, "old")] ⟨"d", "新建文档 (1).md"⟩ = false
    ∧ lookupF ((⟨"d", "新建文档 (1).md"⟩, "") :: [(⟨"d", "新建文档.md"⟩, "old")])
        ⟨"d", "新建文档.md"⟩ = some "old" := by
  have h := createMarkdownFile_safe [(⟨"d", "新建文档.md"⟩, "old")] "d"
    ((⟨"d", "新建文档 (1).md"⟩, "") :: [(⟨"d", "新建文档.md"⟩, "old")])
    ⟨"d", "新建文档 (1).md"⟩ (by decide)
  exact ⟨h.1, h.2.2 ⟨"d", "新建文档.md"⟩ "old" (by decide)⟩

/-! ## HTML → Markdown conversion (`htmlToMarkdown`, renderer.js:161-246)

A DOM fragment is modelled by `HNode`: text nodes, element nodes with
lowercase tag, attributes and children, and any other node kind (comment
etc., converted to the empty string).  `convertNode` receives, instead of
`node.parentNode`, the parent's (lowercase) tag and the node's 0-based
index among the parent's *element* children — the data
`parent.tagName === 'OL'|'PRE'` and
`Array.from(parent.children).indexOf(node)` extract in the source. -/

inductive HNode where
  | text (s : List Char)
  | elem (tag : String) (attrs : List (String × String)) (children : List HNode)
  | other
  deriving Repr

/-- Model of `node.getAttribute(name) || ''`. -/
def getAttr (attrs : List (String × String)) (name : String) : String :=
  match langLookup attrs name with
  | some v => v
  | none => ""

mutual

/-- The `convertNode` switch of renderer.js:175-243. -/
def convertNode (ptag : String) (idx : Nat) : HNode → List Char
  | .text s => s
  | .other => []
  | .elem t attrs cs =>
    let children := convertList t 0 cs
    if t = "h1" then '#' :: ' ' :: (children ++ ['\n', '\n'])
    else if t = "h2" then '#' :: '#' :: ' ' :: (children ++ ['\n', '\n'])
    else if t = "h3" then '#' :: '#' :: '#' :: ' ' :: (children ++ ['\n', '\n'])
    else if t = "h4" then '#' :: '#' :: '#' :: '#' :: ' ' :: (children ++ ['\n', '\n'])
    else if t = "h5" then
      '#' :: '#' :: '#' :: '#' :: '#' :: ' ' :: (children ++ ['\n', '\n'])
    else if t = "h6" then
      '#' :: '#' :: '#' :: '#' :: '#' :: '#' :: ' ' :: (children ++ ['\n', '\n'])
    else if t = "p" then children ++ ['\n', '\n']
    else if t = "strong" ∨ t = "b" then '*' :: '*' :: (children ++ ['*', '*'])
    else if t = "em" ∨ t = "i" then '*' :: (children ++ ['*'])
    else if t = "u" then '<' :: 'u' :: '>' :: (children ++ ['<', '/', 'u', '>'])
    else if t = "code" then
      if ptag = "pre" then children else '`' :: (children ++ ['`'])
    else if t = "pre" then
      '`' :: '`' :: '`' :: '\n' :: (children ++ ['\n', '`', '`', '`', '\n', '\n'])
    else if t = "blockquote" then
      '>' :: ' ' ::
        (List.intercalate ['\n', '>', ' '] (splitNl children) ++ ['\n', '\n'])
    else if t = "ul" then children ++ ['\n']
    else if t = "ol" then children ++ ['\n']
    else if t = "li" then
      (if ptag = "ol" then (Nat.repr (idx + 1)).toList ++ ['.', ' '] else ['-', ' '])
        ++ children ++ ['\n']
    else if t = "a" then
      '[' :: (children ++ ']' :: '(' :: ((getAttr attrs "href").toList ++ [')']))
    else if t = "img" then
      '!' :: '[' :: ((getAttr attrs "alt").toList ++
        ']' :: '(' :: ((getAttr attrs "src").toList ++ [')']))
    else if t = "hr" then ['-', '-', '-', '\n', '\n']
    else if t = "br" then ['\n']
    else children

/-- Model of `Array.from(node.childNodes).map(convertNode).join('')`, threading the
element-child index. -/
def convertList (ptag : String) (idx : Nat) : List HNode → List Char
  | [] => []
  | n :: rest =>
    convertNode ptag idx n ++
      convertList ptag
        (match n with
          | .elem _ _ _ => idx + 1
          | _ => idx) rest

end

/-- Model of `String.prototype.trim()`. -/
def jsTrim (s : List Char) : List Char :=
  ((s.dropWhile isJsSpace).reverse.dropWhile isJsSpace).reverse

/-- Model of `htmlToMarkdown` (renderer.js:161-246): `''` for null/empty input,
otherwise the joined conversion of the parsed fragment's top-level nodes
(whose parent is the temporary `div`), trimmed. -/
def htmlToMarkdown : Option (List HNode) → List Char
  | none => []
  | some ns => jsTrim (convertList "div" 0 ns)

/-- C7: `htmlToMarkdown` maps `h1`…`h6` to that many `#` plus a space, the
converted children and two newlines; maps an `li` under an `ol` to the
prefix `(i+1). ` (`i` its 0-based index among the parent's element
children) and an `li` under any other parent to `- `; and returns the
empty string for empty or null input (shown also on a two-item ordered
list end to end). -/
theorem htmlToMarkdown_spec :
    (htmlToMarkdown none = [] ∧ htmlToMarkdown (some []) = [])
    ∧ (∀ k p i attrs cs, 1 ≤ k → k ≤ 6 →
        convertNode p i (.elem ("h" ++ Nat.repr k) attrs cs)
          = List.replicate k '#' ++ ' ' ::
              (convertList ("h" ++ Nat.repr k) 0 cs ++ ['\n', '\n']))
    ∧ (∀ i attrs cs, convertNode "ol" i (.elem "li" attrs cs)
          = (Nat.repr (i + 1)).toList ++ '.' :: ' ' :: []
              ++ convertList "li" 0 cs ++ ['\n'])
    ∧ (∀ p i attrs cs, p ≠ "ol" → convertNode p i (.elem "li" attrs cs)
          = '-' :: ' ' :: [] ++ convertList "li" 0 cs ++ ['\n'])
    ∧ htmlToMarkdown (some [.elem "ol" []
        [.elem "li" [] [.text "a".toList], .elem "li" [] [.text "b".toList]]])
        = "1. a\n2. b".toList := by
  refine ⟨⟨rfl, rfl⟩, ?_, ?_, ?_, ?_⟩
  · intro k p i attrs cs hk1 hk6
    interval_cases k <;>
      simp [convertNode,
        show ("h" ++ Nat.repr 1 : String) = "h1" from rfl,
        show ("h" ++ Nat.repr 2 : String) = "h2" from rfl,
        show ("h" ++ Nat.repr 3 : String) = "h3" from rfl,
        show ("h" ++ Nat.repr 4 : String) = "h4" from rfl,
        show ("h" ++ Nat.repr 5 : String) = "h5" from rfl,
        show ("h" ++ Nat.repr 6 : String) = "h6" from rfl]
  · intro i attrs cs
    simp [convertNode]
  · intro p i attrs cs hp
    simp [convertNode, hp]
  · decide

/-- C7 (witness): an `h2` element and an `li` under a `ul`, converted at
concrete inputs. -/
theorem htmlToMarkdown_spec_witness :
    convertNode "div" 0 (.elem "h2" [] [.text "hi".toList]) = "## hi\n\n".toList
    ∧ convertNode "ul" 3 (.elem "li" [] [.text "x".toList]) = "- x\n".toList := by
  constructor
  · have h2 := htmlToMarkdown_spec.2.1 2 "div" 0 [] [.text "hi".toList]
      (by decide) (by decide)
    rw [show ("h" ++ Nat.repr 2 : String) = "h2" from rfl] at h2
    rw [h2]
    decide
  · have h3 := htmlToMarkdown_spec.2.2.2.1 "ul" 3 [] [.text "x".toList]
      (by decide)
    rw [h3]
    decide

end Anduin
